import Mathlib

/-!
Shallow embedding of the dynlock repository: a dynamo-style sharded
readers-writer lock.

Two variants are embedded:

* the general keyed variant (`dyn_lock<SharedMutex, N, K, R, W>` in
  `src/dynlock_ht.hpp`) together with its specialization for `R = 1, W = K`
  (`dyn_lock<SharedMutex, N, K, 1, K>` in the same file), and
* the fixed-resource variant (`dyn_lock<SharedTimedMutex, bits, ...>` in the
  unnamed header), whose lock table has `K = 2^bits` slots addressed directly.

External collaborators are modelled as parameters:

* `ih : Nat → Nat` models `std::hash<size_t>` applied to the seed index;
* `th : κ → Nat` models `std::hash<T>` applied to the key;
* the `std::random_shuffle` call is modelled by passing the shuffled list
  (a permutation of `0..K-1`) as an explicit argument;
* the per-handle random generator of the fixed variant
  (`std::independent_bits_engine<Engine, bits, uint_fast64_t>`) is modelled by
  passing its output `g` as an argument; the engine's contract guarantees
  `g < 2^bits`.

`size_t` arithmetic is `Nat` with explicit `% 2^64` where wraparound matters
(the rollback loop of `try_lock` / `try_lock_until`).
-/

namespace Dynlock

/-- Compile-time configuration of the keyed `dyn_lock` class template:
table size `N`, candidate-pool size `K`, reader quorum `R`, writer quorum `W`. -/
structure Config where
  N : Nat
  K : Nat
  R : Nat
  W : Nat
deriving DecidableEq, Repr

/-- `dyn_lock::h(i, key) = ih(i) ^ th(key)` (dynlock_ht.hpp line 55):
XOR of the seed hash and the key hash. -/
def h {κ : Type} (ih : Nat → Nat) (th : κ → Nat) (i : Nat) (key : κ) : Nat :=
  ih i ^^^ th key

/-- `dyn_lock::get_lock(i, key)` returns `_locks[h(i, key) % N]`
(dynlock_ht.hpp line 60); we embed the physical slot index. -/
def getLockIndex {κ : Type} (cfg : Config) (ih : Nat → Nat) (th : κ → Nat)
    (i : Nat) (key : κ) : Nat :=
  h ih th i key % cfg.N

/-- `dyn_lock::array_of_K()` (dynlock_ht.hpp lines 63-68): the vector
`[0, 1, ..., K-1]` of candidate seed indices, identical for every key. -/
def arrayOfK (cfg : Config) : List Nat :=
  List.range cfg.K

/-- `std::vector::resize(k)`: truncate to the first `k` elements, padding with
value-initialized elements (`0`) when `k` exceeds the current length. -/
def vresize (v : List Nat) (k : Nat) : List Nat :=
  v.take k ++ List.replicate (k - v.length) 0

/-- `dyn_lock::hash_choices(k)` (dynlock_ht.hpp lines 70-77): copy the
candidate list, `std::random_shuffle` it (the shuffled list is the `shuffled`
argument here), `resize(k)`, then `std::sort` ascending. -/
def hashChoices (shuffled : List Nat) (k : Nat) : List Nat :=
  List.insertionSort (· ≤ ·) (vresize shuffled k)

/-- Token returned by the general `dyn_lock::lock(key)`
(dynlock_ht.hpp line 84): `hash_choices(W)`. -/
def lockToken (cfg : Config) (shuffled : List Nat) : List Nat :=
  hashChoices shuffled cfg.W

/-- Physical slot sequence acquired by the general `dyn_lock::lock(key)`
(dynlock_ht.hpp lines 85-87): each token entry `i` locks `get_lock(i, key)`,
in token order. -/
def lockSlots {κ : Type} (cfg : Config) (ih : Nat → Nat) (th : κ → Nat)
    (key : κ) (shuffled : List Nat) : List Nat :=
  (lockToken cfg shuffled).map (fun i => getLockIndex cfg ih th i key)

/-- Physical slot sequence released by the general `dyn_lock::unlock(key, tok)`
(dynlock_ht.hpp lines 91-94): each token entry `i` unlocks `get_lock(i, key)`. -/
def unlockSlots {κ : Type} (cfg : Config) (ih : Nat → Nat) (th : κ → Nat)
    (key : κ) (tok : List Nat) : List Nat :=
  tok.map (fun i => getLockIndex cfg ih th i key)

/-- Token returned by the general `dyn_lock::lock_shared(key)`
(dynlock_ht.hpp line 99). NOTE: the source calls `hash_choices(W)` here —
the template parameter `W`, not `R`. -/
def lockSharedToken (cfg : Config) (shuffled : List Nat) : List Nat :=
  hashChoices shuffled cfg.W

/-- Physical slot sequence shared-acquired by the general
`dyn_lock::lock_shared(key)` (dynlock_ht.hpp lines 100-102). -/
def lockSharedSlots {κ : Type} (cfg : Config) (ih : Nat → Nat) (th : κ → Nat)
    (key : κ) (shuffled : List Nat) : List Nat :=
  (lockSharedToken cfg shuffled).map (fun i => getLockIndex cfg ih th i key)

/-- Physical slot sequence released by `dyn_lock::unlock_shared(key, tok)`
(dynlock_ht.hpp lines 106-109). -/
def unlockSharedSlots {κ : Type} (cfg : Config) (ih : Nat → Nat) (th : κ → Nat)
    (key : κ) (tok : List Nat) : List Nat :=
  tok.map (fun i => getLockIndex cfg ih th i key)

/-! Specialization `dyn_lock<SharedMutex, N, K, 1, K>`
(dynlock_ht.hpp lines 143-216): `token` is a scalar `size_t`. -/

/-- Candidate seed indices iterated by the specialized writer loop
`for (i = 0; i < K; ++i)` (dynlock_ht.hpp lines 164-166 and 171-173). -/
def specLockCandidates (cfg : Config) : List Nat :=
  List.range cfg.K

/-- Token returned by the specialized `lock(key)` (dynlock_ht.hpp line 167):
the literal `0`, whatever the key. -/
def specLockToken {κ : Type} (cfg : Config) (ih : Nat → Nat) (th : κ → Nat)
    (key : κ) : Nat :=
  0

/-- Physical slot sequence acquired by the specialized `lock(key)`
(dynlock_ht.hpp lines 164-166): `get_lock(i, key)` for `i = 0..K-1`. -/
def specLockSlots {κ : Type} (cfg : Config) (ih : Nat → Nat) (th : κ → Nat)
    (key : κ) : List Nat :=
  (specLockCandidates cfg).map (fun i => getLockIndex cfg ih th i key)

/-- Physical slot sequence released by the specialized `unlock(key, tok)`
(dynlock_ht.hpp lines 170-174): the token parameter is unnamed and unused;
the loop runs over `i = 0..K-1` exactly as `lock` did. -/
def specUnlockSlots {κ : Type} (cfg : Config) (ih : Nat → Nat) (th : κ → Nat)
    (key : κ) (tok : Nat) : List Nat :=
  (specLockCandidates cfg).map (fun i => getLockIndex cfg ih th i key)

/-- The specialized `lock_shared(key)` (dynlock_ht.hpp lines 177-183) draws
`i = dist(generator)` with `dist` uniform on `0..K-1` (modelled by the
argument `g`), shared-locks `get_lock(i, key)` and returns `i` as the token.
We record the acquired slot as a one-element sequence. -/
def specLockSharedSlots {κ : Type} (cfg : Config) (ih : Nat → Nat) (th : κ → Nat)
    (key : κ) (g : Nat) : List Nat :=
  [getLockIndex cfg ih th g key]

/-- Token returned by the specialized `lock_shared(key)`: the drawn index. -/
def specLockSharedToken (g : Nat) : Nat :=
  g

/-- Slot released by the specialized `unlock_shared(key, tok)`
(dynlock_ht.hpp lines 185-187): `get_lock(tok, key)`. -/
def specUnlockSharedSlot {κ : Type} (cfg : Config) (ih : Nat → Nat) (th : κ → Nat)
    (key : κ) (tok : Nat) : Nat :=
  getLockIndex cfg ih th tok key

/-! Fixed-resource variant (unnamed header): `K() = 1 << bits` slots,
addressed directly, one logical resource. -/

/-- `dyn_lock::K() = 1 << bits` (fixed variant). -/
def fixedK (bits : Nat) : Nat :=
  2 ^ bits

/-- Slot sequence acquired by `shared_timed_mutex::lock()` (fixed variant):
`_locks[i].lock()` for `i = 0..K-1` ascending. -/
def fixedLockSlots (bits : Nat) : List Nat :=
  List.range (fixedK bits)

/-- Slot sequence released by `shared_timed_mutex::unlock()` (fixed variant):
`_locks[i].unlock()` for `i = 0..K-1`. -/
def fixedUnlockSlots (bits : Nat) : List Nat :=
  List.range (fixedK bits)

/-- The ascending `try_lock` / `try_lock_until` loop of the fixed variant:
index of the first underlying acquisition that fails (`avail i = false`),
or `none` when all `K` succeed. -/
def tryLockFailIndex (bits : Nat) (avail : Nat → Bool) : Option Nat :=
  (List.range (fixedK bits)).find? (fun i => !avail i)

/-- Boolean result of `try_lock` / `try_lock_until`: `true` iff no underlying
acquisition failed. -/
def tryLockRet (bits : Nat) (avail : Nat → Bool) : Bool :=
  (tryLockFailIndex bits avail).isNone

/-- One `--i` step on a `size_t` loop counter: decrement with wraparound
modulo `2^64`. -/
def sizetDec (i : Nat) : Nat :=
  (i + (2 ^ 64 - 1)) % 2 ^ 64

/-- The rollback loop `while (--i >= 0) _locks[i].unlock();` of the fixed
variant's `try_lock` / `try_lock_until`, started at failure index `i`:
the sequence of slot indices unlocked during the first `fuel` iterations.
Since `i` is unsigned, the loop condition `--i >= 0` is unconditionally true,
so each iteration unconditionally unlocks `sizetDec i`. -/
def rollbackSeq : Nat → Nat → List Nat
  | _, 0 => []
  | i, fuel + 1 => sizetDec i :: rollbackSeq (sizetDec i) fuel

/-- Per-handle state of the fixed variant's `shared_timed_mutex`:
the `_lockid` member remembering the slot chosen by `lock_shared`. -/
structure FixedHandle where
  lockid : Nat
deriving DecidableEq, Repr

/-- `shared_timed_mutex::lock_shared()` (fixed variant): `_lockid = _gen();`
then `_locks[_lockid].lock_shared()`. The generator output is the argument
`g`; the result is the updated handle and the slot index shared-acquired. -/
def fixedLockShared (g : Nat) : FixedHandle × Nat :=
  (⟨g⟩, g)

/-- `shared_timed_mutex::unlock_shared()` (fixed variant): releases
`_locks[_lockid]`. -/
def fixedUnlockSharedSlot (hdl : FixedHandle) : Nat :=
  hdl.lockid

/-! Per-slot acquisition counters, for the token-correctness property. -/

/-- Increment the acquisition counter of slot `s`. -/
def acquireSlot (c : Nat → Int) (s : Nat) : Nat → Int :=
  fun j => if j = s then c j + 1 else c j

/-- Decrement the acquisition counter of slot `s`. -/
def releaseSlot (c : Nat → Int) (s : Nat) : Nat → Int :=
  fun j => if j = s then c j - 1 else c j

/-- Acquire a sequence of slots in order, counting. -/
def acquireAll (c : Nat → Int) (slots : List Nat) : Nat → Int :=
  slots.foldl acquireSlot c

/-- Release a sequence of slots in order, counting. -/
def releaseAll (c : Nat → Int) (slots : List Nat) : Nat → Int :=
  slots.foldl releaseSlot c

/-- One `lock(key)` / `unlock(key, token)` cycle of the general keyed variant,
acting on per-slot counters: acquire the slots of `lock`, then release the
slots of `unlock` applied to the returned token. -/
def cycle {κ : Type} (cfg : Config) (ih : Nat → Nat) (th : κ → Nat)
    (key : κ) (shuffled : List Nat) (c : Nat → Int) : Nat → Int :=
  releaseAll (acquireAll c (lockSlots cfg ih th key shuffled))
    (unlockSlots cfg ih th key (lockToken cfg shuffled))

/-- A sequence of lock/unlock cycles, each on its own key and shuffle. -/
def runCycles {κ : Type} (cfg : Config) (ih : Nat → Nat) (th : κ → Nat) :
    (Nat → Int) → List (κ × List Nat) → (Nat → Int)
  | c, [] => c
  | c, (key, sh) :: rest => runCycles cfg ih th (cycle cfg ih th key sh c) rest

/-- The all-zero counter state. -/
def zeroCount : Nat → Int :=
  fun _ => 0

/-! Concrete instantiations used in counterexamples and witnesses. -/

/-- A configuration with `R = 3`, `W = 6`, `K = 8` (so `R + W > K`, `R ≠ W`). -/
def cfgB : Config := ⟨1024, 8, 3, 6⟩

/-- A configuration with `R = 7`, `W = 2`, `K = 8`: `R + W = 9 > 8` holds, yet
`2 W = 4 ≤ 8`. -/
def cfgWW : Config := ⟨1024, 8, 7, 2⟩

/-- The `R = 1, W = K` configuration with `K = 8` that selects the
specialization. -/
def cfgSpec8 : Config := ⟨1024, 8, 1, 8⟩

/-- A small `R = 1, W = K` configuration with `K = 4`. -/
def cfgSmall : Config := ⟨16, 4, 1, 4⟩

/-- A small configuration with `K = 3`, `R = W = 2`. -/
def cfgTiny : Config := ⟨16, 3, 2, 2⟩

/-- The identity shuffle of the 8 candidates. -/
def permA : List Nat := [0, 1, 2, 3, 4, 5, 6, 7]

/-- A shuffle of the 8 candidates that moves `2, 3` to the front. -/
def permB : List Nat := [2, 3, 4, 5, 6, 7, 0, 1]

/-- A key-hash function that sends every key to `1`. -/
def thOne : Nat → Nat := fun _ => 1

/-! Helper lemmas about `hashChoices`. -/

lemma perm_range_length {p : List Nat} {K : Nat}
    (hp : List.Perm p (List.range K)) : p.length = K := by
  have := hp.length_eq
  simpa using this

lemma perm_range_nodup {p : List Nat} {K : Nat}
    (hp : List.Perm p (List.range K)) : p.Nodup :=
  hp.symm.nodup (List.nodup_range K)

lemma perm_range_mem {p : List Nat} {K x : Nat}
    (hp : List.Perm p (List.range K)) (hx : x ∈ p) : x < K :=
  List.mem_range.mp (hp.mem_iff.mp hx)

lemma hashChoices_perm_take {p : List Nat} {k : Nat} (hk : k ≤ p.length) :
    List.Perm (hashChoices p k) (p.take k) := by
  unfold hashChoices vresize
  rw [Nat.sub_eq_zero_of_le hk]
  simpa using List.perm_insertionSort (· ≤ ·) (p.take k)

lemma hashChoices_length {p : List Nat} {K k : Nat}
    (hp : List.Perm p (List.range K)) (hk : k ≤ K) :
    (hashChoices p k).length = k := by
  have hlen := perm_range_length hp
  have hk2 : k ≤ p.length := by omega
  have h1 := (hashChoices_perm_take hk2).length_eq
  rw [List.length_take] at h1
  omega

lemma hashChoices_nodup {p : List Nat} {K k : Nat}
    (hp : List.Perm p (List.range K)) (hk : k ≤ K) :
    (hashChoices p k).Nodup := by
  have hlen := perm_range_length hp
  exact (hashChoices_perm_take (by omega)).symm.nodup
    ((List.take_sublist k p).nodup (perm_range_nodup hp))

lemma hashChoices_mem {p : List Nat} {K k x : Nat}
    (hp : List.Perm p (List.range K)) (hk : k ≤ K)
    (hx : x ∈ hashChoices p k) : x < K := by
  have hlen := perm_range_length hp
  have h1 : x ∈ p.take k := (hashChoices_perm_take (by omega)).mem_iff.mp hx
  exact perm_range_mem hp ((List.take_sublist k p).subset h1)

lemma hashChoices_sorted (p : List Nat) (k : Nat) :
    List.Sorted (· ≤ ·) (hashChoices p k) :=
  List.sorted_insertionSort (· ≤ ·) (vresize p k)

lemma hashChoices_chain_lt {p : List Nat} {K k : Nat}
    (hp : List.Perm p (List.range K)) (hk : k ≤ K) :
    List.Chain' (· < ·) (hashChoices p k) := by
  refine List.chain'_iff_pairwise.mpr ?_
  exact ((hashChoices_sorted p k).and (hashChoices_nodup hp hk)).imp
    (fun hab => lt_of_le_of_ne hab.1 hab.2)

/-- Pigeonhole on duplicate-free lists of indices below `K`: if the lengths
sum to more than `K`, the lists share an element. -/
lemma lists_intersect {K : Nat} {l1 l2 : List Nat}
    (h1n : l1.Nodup) (h2n : l2.Nodup)
    (h1m : ∀ x ∈ l1, x < K) (h2m : ∀ x ∈ l2, x < K)
    (hc : K < l1.length + l2.length) :
    ∃ x, x ∈ l1 ∧ x ∈ l2 := by
  have hs1 : l1.toFinset ⊆ Finset.range K := by
    intro x hx
    exact Finset.mem_range.mpr (h1m x (List.mem_toFinset.mp hx))
  have hs2 : l2.toFinset ⊆ Finset.range K := by
    intro x hx
    exact Finset.mem_range.mpr (h2m x (List.mem_toFinset.mp hx))
  have hc1 : l1.toFinset.card = l1.length := List.toFinset_card_of_nodup h1n
  have hc2 : l2.toFinset.card = l2.length := List.toFinset_card_of_nodup h2n
  have hu : (l1.toFinset ∪ l2.toFinset).card ≤ K := by
    have := Finset.card_le_card (Finset.union_subset hs1 hs2)
    simpa using this
  have hiu := Finset.card_union_add_card_inter l1.toFinset l2.toFinset
  have hpos : 0 < (l1.toFinset ∩ l2.toFinset).card := by omega
  obtain ⟨x, hx⟩ := Finset.card_pos.mp hpos
  obtain ⟨hx1, hx2⟩ := Finset.mem_inter.mp hx
  exact ⟨x, List.mem_toFinset.mp hx1, List.mem_toFinset.mp hx2⟩

/-- Claim C7: in the general keyed variant, the token returned by `lock(key)`
is a strictly ascending (hence duplicate-free) sequence of exactly `W`
distinct candidate indices drawn from `0..K-1`. The shuffle is any
permutation of the `K` candidates and the configuration satisfies `W ≤ K`. -/
theorem C7_lock_token_strictly_ascending (cfg : Config) (p : List Nat)
    (hp : List.Perm p (List.range cfg.K)) (hW : cfg.W ≤ cfg.K) :
    List.Chain' (· < ·) (lockToken cfg p) ∧
    (lockToken cfg p).length = cfg.W ∧
    ∀ x ∈ lockToken cfg p, x < cfg.K := by
  simp only [lockToken]
  exact ⟨hashChoices_chain_lt hp hW, hashChoices_length hp hW,
    fun x hx => hashChoices_mem hp hW hx⟩

/-- Witness for C7 at `cfgB` (`K = 8`, `W = 6`) and the identity shuffle. -/
theorem C7_lock_token_strictly_ascending_witness :
    (List.Perm (List.range 8) (List.range cfgB.K) ∧ cfgB.W ≤ cfgB.K) ∧
    (lockToken cfgB (List.range 8)).length = cfgB.W :=
  ⟨⟨by decide, by decide⟩,
    (C7_lock_token_strictly_ascending cfgB (List.range 8)
      (by decide) (by decide)).2.1⟩

/-- Claim C2 counterexample: the configuration `cfgWW` (`K = 8`, `R = 7`,
`W = 2`) satisfies `R + W > K`, yet the writer subsets chosen from the
shuffles `permA` and `permB` are `[0, 1]` and `[2, 3]`, which are disjoint;
so two writers' `W`-subsets need not intersect under `R + W > K` alone. -/
theorem C2_writer_writer_counterexample :
    List.Perm permA (List.range cfgWW.K) ∧
    List.Perm permB (List.range cfgWW.K) ∧
    cfgWW.K < cfgWW.R + cfgWW.W ∧
    lockToken cfgWW permA = [0, 1] ∧
    lockToken cfgWW permB = [2, 3] ∧
    ∀ x ∈ lockToken cfgWW permA, x ∉ lockToken cfgWW permB := by
  decide

/-- Claim C2 (amended): for any configuration and any shuffles of the `K`
candidates, a writer's `W`-subset and a reader's `R`-subset intersect
whenever `R + W > K`; two writers' `W`-subsets intersect under the
additional condition `2 W > K` (which follows from `R + W > K` when
`R ≤ W`, but not in general). -/
theorem C2_quorum_intersection (cfg : Config) (pW pR pV : List Nat)
    (hpW : List.Perm pW (List.range cfg.K))
    (hpR : List.Perm pR (List.range cfg.K))
    (hpV : List.Perm pV (List.range cfg.K))
    (hR : cfg.R ≤ cfg.K) (hW : cfg.W ≤ cfg.K) :
    (cfg.K < cfg.R + cfg.W →
      ∃ x, x ∈ lockToken cfg pW ∧ x ∈ hashChoices pR cfg.R) ∧
    (cfg.K < cfg.W + cfg.W →
      ∃ x, x ∈ lockToken cfg pW ∧ x ∈ lockToken cfg pV) := by
  simp only [lockToken]
  constructor
  · intro hlt
    apply lists_intersect (hashChoices_nodup hpW hW) (hashChoices_nodup hpR hR)
      (fun x hx => hashChoices_mem hpW hW hx)
      (fun x hx => hashChoices_mem hpR hR hx)
    rw [hashChoices_length hpW hW, hashChoices_length hpR hR]
    omega
  · intro hlt
    apply lists_intersect (hashChoices_nodup hpW hW) (hashChoices_nodup hpV hW)
      (fun x hx => hashChoices_mem hpW hW hx)
      (fun x hx => hashChoices_mem hpV hW hx)
    rw [hashChoices_length hpW hW, hashChoices_length hpV hW]
    omega

/-- Witness for the amended C2 at `cfgTiny` (`K = 3`, `R = 2`, `W = 2`) with
identity shuffles. -/
theorem C2_quorum_intersection_witness :
    (cfgTiny.K < cfgTiny.R + cfgTiny.W →
      ∃ x, x ∈ lockToken cfgTiny (List.range 3) ∧
        x ∈ hashChoices (List.range 3) cfgTiny.R) ∧
    (cfgTiny.K < cfgTiny.W + cfgTiny.W →
      ∃ x, x ∈ lockToken cfgTiny (List.range 3) ∧
        x ∈ lockToken cfgTiny (List.range 3)) :=
  C2_quorum_intersection cfgTiny (List.range 3) (List.range 3) (List.range 3)
    (by decide) (by decide) (by decide) (by decide) (by decide)

/-- Claim C4 counterexample: with `N = 1024`, `K = 8`, the identity seed hash
and a key whose hash is `1`, the specialized writer `lock(key)` acquires the
physical slot sequence `[1, 0, 3, 2, 5, 4, 7, 6]`, which is not ascending in
physical index: the acquisition order is ascending only in candidate-seed
order. -/
theorem C4_physical_order_counterexample :
    specLockSlots cfgSpec8 id thOne (0 : Nat) = [1, 0, 3, 2, 5, 4, 7, 6] ∧
    ¬ List.Chain' (· ≤ ·) (specLockSlots cfgSpec8 id thOne (0 : Nat)) := by
  have he : specLockSlots cfgSpec8 id thOne (0 : Nat) = [1, 0, 3, 2, 5, 4, 7, 6] := by
    decide
  refine ⟨he, ?_⟩
  rw [he]
  intro hchain
  exact absurd (List.chain'_cons.mp hchain).1 (by decide)

/-- Claim C4 (amended): within every call, acquisition is in strictly
ascending candidate-seed order — the general keyed token is sorted strictly
ascending and the specialized keyed writer iterates seeds `0..K-1` — and in
the fixed-resource variant, whose slots are addressed directly, the physical
slot indices are acquired in strictly ascending order. The keyed variants'
physical slot indices need not be ascending. -/
theorem C4_ascending_acquisition_order (cfg : Config) (p : List Nat)
    (hp : List.Perm p (List.range cfg.K)) (hW : cfg.W ≤ cfg.K) (bits : Nat) :
    List.Chain' (· < ·) (lockToken cfg p) ∧
    List.Chain' (· < ·) (specLockCandidates cfg) ∧
    fixedLockSlots bits = List.range (fixedK bits) ∧
    List.Chain' (· < ·) (fixedLockSlots bits) := by
  simp only [lockToken, specLockCandidates, fixedLockSlots]
  refine ⟨hashChoices_chain_lt hp hW,
    List.chain'_iff_pairwise.mpr (List.pairwise_lt_range cfg.K), ?_,
    List.chain'_iff_pairwise.mpr (List.pairwise_lt_range (fixedK bits))⟩
  trivial

/-- Witness for the amended C4 at `cfgSmall` (`K = 4`, `W = 4`), the identity
shuffle, and `bits = 2`. -/
theorem C4_ascending_acquisition_order_witness :
    List.Chain' (· < ·) (lockToken cfgSmall (List.range 4)) ∧
    List.Chain' (· < ·) (specLockCandidates cfgSmall) ∧
    fixedLockSlots 2 = List.range (fixedK 2) ∧
    List.Chain' (· < ·) (fixedLockSlots 2) :=
  C4_ascending_acquisition_order cfgSmall (List.range 4) (by decide) (by decide) 2

/-- Claim C1 evaluation, exhibiting the divergence between the claim and the
source: at `cfgB` (`K = 8`, `R = 3`, `W = 6`) with the identity shuffle, the
token returned by the general `lock_shared` has six elements — the source
calls `hash_choices(W)` on its shared path, not `hash_choices(R)` — so the
token has `W` elements, not the claimed `R`. -/
theorem C1_lock_shared_token_size_eval :
    lockSharedToken cfgB (List.range 8) = [0, 1, 2, 3, 4, 5] ∧
    (lockSharedToken cfgB (List.range 8)).length = cfgB.W ∧
    cfgB.R ≠ cfgB.W := by
  decide

/-- Claim C5 evaluation, exhibiting the divergence between the claim and the
source: at the `R = 1, W = K` configuration `cfgSpec8` (`K = 8`) with
identity hashes and key `0`, the writer paths of the general and specialized
implementations acquire the same slot sequence, but the general reader path
shared-acquires all eight candidate slots (`hash_choices(W)` with `W = K`)
while the specialized reader path acquires exactly one. -/
theorem C5_reader_paths_differ_eval :
    lockSlots cfgSpec8 id id (0 : Nat) (List.range 8) =
      specLockSlots cfgSpec8 id id (0 : Nat) ∧
    lockSharedSlots cfgSpec8 id id (0 : Nat) (List.range 8) =
      [0, 1, 2, 3, 4, 5, 6, 7] ∧
    (lockSharedSlots cfgSpec8 id id (0 : Nat) (List.range 8)).length = 8 ∧
    specLockSharedSlots cfgSpec8 id id (0 : Nat) 3 = [3] ∧
    (specLockSharedSlots cfgSpec8 id id (0 : Nat) 3).length = 1 := by
  decide

/-- Claim C8: the key/slot hash is total and deterministic: the slot is
`(ih(i) XOR th(key)) % N`, always below `N`; the candidate seed set is
`0..K-1` for every key; and the slot depends only on the two hash values. -/
theorem C8_hash_total_deterministic {κ : Type} (cfg : Config) (ih : Nat → Nat)
    (th : κ → Nat) (i : Nat) (key : κ) (hN : 0 < cfg.N) :
    getLockIndex cfg ih th i key = (ih i ^^^ th key) % cfg.N ∧
    getLockIndex cfg ih th i key < cfg.N ∧
    arrayOfK cfg = List.range cfg.K ∧
    (∀ i2 (key2 : κ), ih i2 = ih i → th key2 = th key →
      getLockIndex cfg ih th i2 key2 = getLockIndex cfg ih th i key) := by
  refine ⟨rfl, Nat.mod_lt _ hN, rfl, ?_⟩
  intro i2 key2 h1 h2
  simp [getLockIndex, h, h1, h2]

/-- Witness for C8 at `cfgB`, identity hashes, seed `3`, key `7`. -/
theorem C8_hash_total_deterministic_witness :
    0 < cfgB.N ∧ getLockIndex cfgB id id 3 (7 : Nat) < cfgB.N :=
  ⟨by decide, (C8_hash_total_deterministic cfgB id id 3 (7 : Nat) (by decide)).2.1⟩

/-- Claim C9: in the fixed-resource variant, `lock_shared()` stores the
generator output as the chosen index — in range `0..K-1` by the
`independent_bits_engine` contract, modelled as the hypothesis — acquires
that slot, and the subsequent `unlock_shared()` releases exactly the
remembered index. -/
theorem C9_fixed_shared_roundtrip (bits g : Nat) (hg : g < fixedK bits) :
    (fixedLockShared g).2 < fixedK bits ∧
    (fixedLockShared g).1.lockid = g ∧
    fixedUnlockSharedSlot (fixedLockShared g).1 = (fixedLockShared g).2 :=
  ⟨hg, rfl, rfl⟩

/-- Witness for C9 at `bits = 4`, generator output `7`. -/
theorem C9_fixed_shared_roundtrip_witness :
    7 < fixedK 4 ∧ fixedUnlockSharedSlot (fixedLockShared 7).1 = (fixedLockShared 7).2 :=
  ⟨by decide, (C9_fixed_shared_roundtrip 4 7 (by decide)).2.2⟩

/-- Claim C10: the specialized keyed writer `lock(key)` returns the token `0`
for every key, and `unlock(key, tok)` ignores the token: any two token values
release the same `K` slots, determined only by the key. -/
theorem C10_spec_writer_token_ignored {κ : Type} (cfg : Config) (ih : Nat → Nat)
    (th : κ → Nat) (key : κ) (t1 t2 : Nat) :
    specLockToken cfg ih th key = 0 ∧
    specUnlockSlots cfg ih th key t1 = specUnlockSlots cfg ih th key t2 ∧
    specUnlockSlots cfg ih th key t1 =
      (List.range cfg.K).map (fun i => getLockIndex cfg ih th i key) :=
  ⟨rfl, rfl, rfl⟩

/-- Claim C3 evaluation, exhibiting the divergence between the claim and the
source: fixed variant with `bits = 2` (`K = 4`), with the underlying
`try_lock` failing first at index `2`. The ascending loop stops at `i = 2`
and the boolean result is `false`, but the rollback loop `while (--i >= 0)`
decrements an unsigned `size_t`: after releasing slots `1` and `0` it wraps
around to `2^64 - 1` and keeps releasing out-of-range slot indices — its
condition never becomes false, so it releases one slot per iteration
forever instead of exactly slots `0..i-1`. -/
theorem C3_rollback_underflow_eval :
    tryLockFailIndex 2 (fun i => i != 2) = some 2 ∧
    tryLockRet 2 (fun i => i != 2) = false ∧
    rollbackSeq 2 4 = [1, 0, 2 ^ 64 - 1, 2 ^ 64 - 2] ∧
    (∀ i fuel, (rollbackSeq i fuel).length = fuel) := by
  refine ⟨by decide, by decide, by decide, ?_⟩
  intro i fuel
  induction fuel generalizing i with
  | zero => rfl
  | succ n ihn => simp [rollbackSeq, ihn]

/-! Counter lemmas for the token-correctness claim. -/

lemma acquireAll_apply (slots : List Nat) : ∀ (c : Nat → Int) (j : Nat),
    acquireAll c slots j = c j + slots.count j := by
  induction slots with
  | nil => intro c j; simp [acquireAll]
  | cons s rest ihs =>
    intro c j
    have hstep : acquireAll c (s :: rest) = acquireAll (acquireSlot c s) rest := rfl
    rw [hstep, ihs]
    by_cases hj : j = s
    · subst hj
      simp [acquireSlot, List.count_cons]
      omega
    · simp [acquireSlot, hj, List.count_cons]

lemma releaseAll_apply (slots : List Nat) : ∀ (c : Nat → Int) (j : Nat),
    releaseAll c slots j = c j - slots.count j := by
  induction slots with
  | nil => intro c j; simp [releaseAll]
  | cons s rest ihs =>
    intro c j
    have hstep : releaseAll c (s :: rest) = releaseAll (releaseSlot c s) rest := rfl
    rw [hstep, ihs]
    by_cases hj : j = s
    · subst hj
      simp [releaseSlot, List.count_cons]
      omega
    · simp [releaseSlot, hj, List.count_cons]

/-- A full lock/unlock cycle leaves every per-slot counter unchanged: the
unlock path releases exactly the multiset of slots the lock path acquired,
because both map the same token through the same hash. -/
lemma cycle_id {κ : Type} (cfg : Config) (ih : Nat → Nat) (th : κ → Nat)
    (key : κ) (sh : List Nat) (c : Nat → Int) :
    cycle cfg ih th key sh c = c := by
  funext j
  have hsame : unlockSlots cfg ih th key (lockToken cfg sh) =
      lockSlots cfg ih th key sh := rfl
  simp only [cycle, hsame, releaseAll_apply, acquireAll_apply]
  omega

lemma runCycles_id {κ : Type} (cfg : Config) (ih : Nat → Nat) (th : κ → Nat) :
    ∀ (ops : List (κ × List Nat)) (c : Nat → Int),
    runCycles cfg ih th c ops = c := by
  intro ops
  induction ops with
  | nil => intro c; rfl
  | cons op rest ihop =>
    intro c
    obtain ⟨key, sh⟩ := op
    have hstep : runCycles cfg ih th c ((key, sh) :: rest) =
        runCycles cfg ih th (cycle cfg ih th key sh c) rest := rfl
    rw [hstep, cycle_id, ihop]

/-- Claim C6: `unlock(key, token)` releases exactly the slots of the token
mapped through the acquisition hash; starting from all-zero per-slot
counters, any sequence of lock/unlock cycles returns every counter to zero,
and no intermediate counter of a cycle — neither during acquisition nor
during release — is ever negative. -/
theorem C6_token_roundtrip {κ : Type} (cfg : Config) (ih : Nat → Nat)
    (th : κ → Nat) (key : κ) (sh : List Nat) (ops : List (κ × List Nat))
    (m : Nat) :
    unlockSlots cfg ih th key (lockToken cfg sh) = lockSlots cfg ih th key sh ∧
    cycle cfg ih th key sh zeroCount = zeroCount ∧
    runCycles cfg ih th zeroCount ops = zeroCount ∧
    (∀ j, 0 ≤ acquireAll zeroCount ((lockSlots cfg ih th key sh).take m) j) ∧
    (∀ j, 0 ≤ releaseAll (acquireAll zeroCount (lockSlots cfg ih th key sh))
      ((unlockSlots cfg ih th key (lockToken cfg sh)).take m) j) := by
  refine ⟨rfl, cycle_id cfg ih th key sh zeroCount,
    runCycles_id cfg ih th ops zeroCount, ?_, ?_⟩
  · intro j
    rw [acquireAll_apply]
    simp [zeroCount]
  · intro j
    have hsame : unlockSlots cfg ih th key (lockToken cfg sh) =
        lockSlots cfg ih th key sh := rfl
    rw [releaseAll_apply, acquireAll_apply, hsame]
    have hcount : ((lockSlots cfg ih th key sh).take m).count j ≤
        (lockSlots cfg ih th key sh).count j :=
      (List.take_sublist m (lockSlots cfg ih th key sh)).count_le j
    simp only [zeroCount]
    omega

end Dynlock
